import Mathlib

/-!
Verification development for the DarkWebPortal stack lifecycle controller
(`run_onion_portal.py`).  The Python source is shallowly embedded below:
pure string manipulation becomes functions on `List Char`, the process-wide
memoized compose command becomes explicit state passing, and external
effects (probing for executables, running the compose tool, the wall
clock) become explicit environment records.
-/

/-- Preference values of the desired mapping `I2P_PROXY_PREFS` in the
source: a value is a Python `str`, `bool` or `int`. -/
inductive PrefValue where
  | str (s : String)
  | bool (b : Bool)
  | int (n : Int)
deriving DecidableEq, Repr

/-- The fixed desired preference mapping `I2P_PROXY_PREFS` from the source,
in the dict's insertion (iteration) order.  Keys are kept as character
lists because all remote-file processing works on characters. -/
def I2P_PROXY_PREFS : List (List Char × PrefValue) :=
  [ ("network.proxy.http".data, .str "127.0.0.1"),
    ("network.proxy.http_port".data, .int 4444),
    ("network.proxy.share_proxy_settings".data, .bool false),
    ("network.proxy.socks".data, .str ""),
    ("network.proxy.socks_port".data, .int 0),
    ("network.proxy.socks_version".data, .int 5),
    ("network.proxy.ssl".data, .str "127.0.0.1"),
    ("network.proxy.ssl_port".data, .int 4444),
    ("network.proxy.type".data, .int 1),
    ("network.proxy.no_proxies_on".data, .str "localhost,127.0.0.1"),
    ("network.proxy.allow_hijacking_localhost".data, .bool true),
    ("network.proxy.socks_remote_dns".data, .bool false),
    ("media.peerconnection.ice.proxy_only".data, .bool true),
    ("keyword.enabled".data, .bool false) ]

/-! ## Python string primitives used by the generated remote script -/

/-- Python `str.strip()` whitespace test (ASCII whitespace; the source only
ever strips ASCII content). -/
def pyIsSpace (c : Char) : Bool :=
  c = ' ' || c = '\t' || c = '\n' || c = '\x0b' || c = '\x0c' || c = '\r'

/-- Python `str.strip()`: drop leading and trailing whitespace. -/
def pyStrip (s : List Char) : List Char :=
  ((s.dropWhile pyIsSpace).reverse.dropWhile pyIsSpace).reverse

/-- Python line-boundary characters recognized by `str.splitlines()`. -/
def pyLineBreak (c : Char) : Bool :=
  c = '\n' || c = '\r' || c = '\x0b' || c = '\x0c' ||
  c = '\x1c' || c = '\x1d' || c = '\x1e' || c = '\x85' ||
  c = '\u2028' || c = '\u2029'

/-- Worker for `splitLines`; `acc` is the current (reversed) line.  The
`\r\n` pair counts as a single boundary, and a trailing boundary produces
no extra empty line, exactly as in Python. -/
def splitLinesAux : List Char → List Char → List (List Char)
  | [], acc => if acc.isEmpty then [] else [acc.reverse]
  | c :: rest, acc =>
    if pyLineBreak c then
      if c = '\r' then
        match rest with
        | [] => [acc.reverse]
        | c2 :: rest2 =>
          if c2 = '\n' then acc.reverse :: splitLinesAux rest2 []
          else acc.reverse :: splitLinesAux (c2 :: rest2) []
      else acc.reverse :: splitLinesAux rest []
    else splitLinesAux rest (c :: acc)

/-- Python `str.splitlines()`. -/
def splitLines (s : List Char) : List (List Char) :=
  splitLinesAux s []

/-- Python `str.split('"', maxsplit)`: the first argument counts the
remaining allowed splits. -/
def pySplitQuote : Nat → List Char → List Char → List (List Char)
  | _, [], acc => [acc.reverse]
  | maxs, c :: rest, acc =>
      if c = '"' && maxs != 0 then acc.reverse :: pySplitQuote (maxs - 1) rest []
      else pySplitQuote maxs rest (c :: acc)

/-! ## The generated remote patch script (`ensure_i2p_proxy_settings`) -/

/-- The script's `format_value`.  Note the faithful rendering of the
source's string branch: the f-string `return '"{{}}".format(value)'`
renders to the remote statement `return '"` followed by a brace pair and
`".format(value)'`, whose right-hand side is one string literal — so a
string-typed preference is formatted as that constant literal text, not as
the double-quoted value.  Booleans render as `true`/`false`, integers as
Python `str(value)`. -/
def format_value : PrefValue → List Char
  | .str _ => "\"\x7b\x7d\".format(value)".data
  | .bool b => if b then "true".data else "false".data
  | .int n => (Int.repr n).data

/-- The script's `build_line`:
`'user_pref("<key>", <formatted value>);'`. -/
def build_line (key : List Char) (v : PrefValue) : List Char :=
  "user_pref(\"".data ++ key ++ "\", ".data ++ format_value v ++ ");".data

/-- Key extraction of the script: `stripped.split('"', 2)[1]`.  The source
indexes unconditionally; totality of that index under the recognition
guard is claim C10, proved below. -/
def extractKey (stripped : List Char) : List Char :=
  (pySplitQuote 2 stripped []).getD 1 []

/-- One loop iteration of the script as a per-line function: a line whose
stripped form starts with `user_pref("` and whose extracted key is in
`desired` is replaced by a freshly built assignment; every other line
passes through unchanged. -/
def lineTransform (desired : List (List Char × PrefValue)) (line : List Char) : List Char :=
  let stripped := pyStrip line
  if ("user_pref(\"".data).isPrefixOf stripped then
    match List.lookup (extractKey stripped) desired with
    | some v => build_line (extractKey stripped) v
    | none => line
  else line

/-- The key a line contributes to the script's `seen` set, if any:
the extracted key of a recognized line when that key is in `desired`. -/
def seenKeyOf (desired : List (List Char × PrefValue)) (line : List Char) : Option (List Char) :=
  let stripped := pyStrip line
  if ("user_pref(\"".data).isPrefixOf stripped then
    match List.lookup (extractKey stripped) desired with
    | some _ => some (extractKey stripped)
    | none => none
  else none

/-- Whether a line is a recognized assignment of some desired key. -/
def isDesired (desired : List (List Char × PrefValue)) (line : List Char) : Bool :=
  (seenKeyOf desired line).isSome

/-- The extracted key of a recognized line (desired or not), used to state
the per-key occurrence counts of claim C2. -/
def keyOfLine (line : List Char) : Option (List Char) :=
  let stripped := pyStrip line
  if ("user_pref(\"".data).isPrefixOf stripped then some (extractKey stripped)
  else none

/-- The script's main loop over the file's lines, returning the rewritten
lines (`updated_lines`) together with the keys added to `seen`, in line
order. -/
def processLines (desired : List (List Char × PrefValue)) :
    List (List Char) → List (List Char) × List (List Char)
  | [] => ([], [])
  | line :: rest =>
    let res := processLines desired rest
    let stripped := pyStrip line
    if ("user_pref(\"".data).isPrefixOf stripped then
      match List.lookup (extractKey stripped) desired with
      | some v => (build_line (extractKey stripped) v :: res.1, extractKey stripped :: res.2)
      | none => (line :: res.1, res.2)
    else (line :: res.1, res.2)

/-- Loop plus the trailing append phase: every desired key not in `seen`
is appended as a new assignment line, in the iteration order of
`desired`. -/
def reconcileLines (desired : List (List Char × PrefValue)) (lines : List (List Char)) :
    List (List Char) :=
  let res := processLines desired lines
  res.1 ++ (desired.filter (fun kv => !(res.2.contains kv.1))).map (fun kv => build_line kv.1 kv.2)

/-- Whole-file transformation of the script on the preference file's text:
`splitlines`, reconcile, then `"\n".join(...) + "\n"`. -/
def reconcileText (desired : List (List Char × PrefValue)) (content : List Char) : List Char :=
  List.intercalate ['\n'] (reconcileLines desired (splitLines content)) ++ ['\n']

/-- The remote patch procedure at the filesystem boundary: `none` models
an absent preference file.  Both the shell guard `[ ! -f "$prefs_file" ]`
and the script's `if not prefs_path.exists(): raise SystemExit(0)` exit
with status 0 without writing; otherwise the file is rewritten with the
reconciled text and the script exits 0.  The result is
`(exit status, file content after the run)`. -/
def remotePatch (desired : List (List Char × PrefValue)) (file : Option (List Char)) :
    Nat × Option (List Char) :=
  match file with
  | none => (0, none)
  | some content => (0, some (reconcileText desired content))

/-- Outcome classification of `ensure_i2p_proxy_settings` on the remote
exit status: `returncode == 0` is reported as success, anything else as a
remote error. -/
inductive ReconcileOutcome where
  | success
  | remoteError (code : Nat)
deriving DecidableEq, Repr

/-- Mapping from the remote exit status to the reported outcome. -/
def reconcileOutcome (rc : Nat) : ReconcileOutcome :=
  if rc = 0 then .success else .remoteError rc

/-! ## Command resolver and stack driver -/

/-- The host environment probed by `get_compose_base_cmd`:
`shutil.which("docker")`, the exit status of `docker compose version`,
and `shutil.which("docker-compose")`. -/
structure ResolveEnv where
  dockerPath : Option String
  composeVersionRc : Nat
  dockerComposePath : Option String
deriving DecidableEq, Repr

/-- Shallow embedding of `get_compose_base_cmd`.  The process-global
`_COMPOSE_CMD` becomes the explicit `cached` argument and the second
component of the result; the third component counts the external probes
performed during the call (`shutil.which` lookups and the
`docker compose version` subprocess).  Note the source returns `None`
without writing the cache when neither form is found. -/
def get_compose_base_cmd (env : ResolveEnv) (cached : Option (List String)) :
    Option (List String) × Option (List String) × Nat :=
  match cached with
  | some cmd => (some cmd, some cmd, 0)
  | none =>
    match env.dockerPath with
    | some docker =>
      if env.composeVersionRc = 0 then
        (some [docker, "compose"], some [docker, "compose"], 2)
      else
        match env.dockerComposePath with
        | some dc => (some [dc], some [dc], 3)
        | none => (none, none, 3)
    | none =>
      match env.dockerComposePath with
      | some dc => (some [dc], some [dc], 2)
      | none => (none, none, 2)

/-- The fixed project name of the stack. -/
def PROJECT_NAME : String := "darkweb_portal"

/-- Shallow embedding of `run_compose`: resolve the base command and, when
available, build and execute
`<cmd> -f <compose file> --project-name darkweb_portal <args...>`.
The result is `(driver result, new cache, compose commands executed)`;
`none` as first component models the `Unavailable` early return, in which
case no compose process is executed. -/
def run_compose (env : ResolveEnv) (cached : Option (List String))
    (composeFile : String) (args : List String) :
    Option (List String) × Option (List String) × List (List String) :=
  match get_compose_base_cmd env cached with
  | (none, c, _) => (none, c, [])
  | (some cmd, c, _) =>
    let fullCmd := cmd ++ ["-f", composeFile, "--project-name", PROJECT_NAME] ++ args
    (some fullCmd, c, [fullCmd])

/-! ## Readiness poller -/

/-- Environment of `wait_for_service`: `times k` is the value returned by
the k-th `time.time()` call (call 0 computes the deadline, call `k+1`
guards loop iteration `k`; the sleeps between iterations are what makes
the sequence advance), and `query k` is the outcome of the k-th
`run_compose(... ps --services --filter status=running, capture=True)`
call — `none` when the driver is unavailable, otherwise the return code
and captured stdout. -/
structure PollEnv where
  times : Nat → Nat
  query : Nat → Option (Nat × List Char)

/-- The body test of `wait_for_service`: a query observes the target
service exactly when it returned, exited 0, and the target name is among
the stripped `splitlines` of its stdout. -/
def serviceSeen (service : List Char) (q : Option (Nat × List Char)) : Bool :=
  match q with
  | some (rc, out) => rc == 0 && ((splitLines out).map pyStrip).contains service
  | none => false

/-- The `while time.time() < deadline` loop of `wait_for_service`,
iteration `k` onward.  `fuel` bounds the number of iterations modelled;
the characterization theorem assumes the clock passes the deadline within
`fuel` iterations, which makes the bound inert. -/
def wfsLoop (env : PollEnv) (service : List Char) (deadline : Nat) :
    Nat → Nat → Bool
  | 0, _ => false
  | fuel + 1, k =>
    if env.times (k + 1) < deadline then
      if serviceSeen service (env.query k) then true
      else wfsLoop env service deadline fuel (k + 1)
    else false

/-- Shallow embedding of `wait_for_service`: compute the absolute deadline
`time.time() + timeout`, then poll. -/
def wait_for_service (env : PollEnv) (service : List Char) (timeout fuel : Nat) : Bool :=
  wfsLoop env service (env.times 0 + timeout) fuel 0

/-! ## Controller sequencing (`start_stack`) -/

/-- Report of one `start_stack` run. -/
inductive StartReport where
  | driverUnavailable
  | startFailed (code : Int)
  | readinessTimedOut
  | reconcileReport (remoteExit : Option Int)
deriving DecidableEq, Repr

/-- Environment of one `start_stack` run: the result of the `up -d --build`
invocation (`none` = driver unavailable), the outcome of
`wait_for_service`, and the result of the reconciliation `exec`. -/
structure StartEnv where
  upResult : Option Int
  serviceReady : Bool
  execResult : Option Int
deriving DecidableEq, Repr

/-- Shallow embedding of `start_stack`: run `up`; on exit 0 poll the I2P
browser service and, only if it is observed running, invoke the
preference reconciliation; on non-zero exit report failure without
polling.  Result: `(report, poller invoked, reconciliation invoked)`. -/
def start_stack (env : StartEnv) : StartReport × Bool × Bool :=
  match env.upResult with
  | none => (.driverUnavailable, false, false)
  | some rc =>
    if rc = 0 then
      if env.serviceReady then (.reconcileReport env.execResult, true, true)
      else (.readinessTimedOut, true, false)
    else (.startFailed rc, false, false)

/-! ## Shape of a recognized line according to the specification -/

/-- Modelled from the spec's words (for the refinement comparison of claim
C4): a line of the exact shape `user_pref("<key>", <value>);`. -/
def specRecognizedShape (line : List Char) : Prop :=
  ∃ key value, line = "user_pref(\"".data ++ key ++ "\", ".data ++ value ++ ");".data

/-! ## Helper lemmas -/

theorem lookup_mem {d : List (List Char × PrefValue)} {k : List Char} {v : PrefValue}
    (h : List.lookup k d = some v) : (k, v) ∈ d := by
  induction d with
  | nil => simp [List.lookup] at h
  | cons kv t ih =>
    obtain ⟨a, b⟩ := kv
    rw [List.lookup] at h
    cases hbeq : k == a with
    | true =>
      rw [hbeq] at h
      have h' : some b = some v := h
      have hk := eq_of_beq hbeq
      subst hk
      rw [← Option.some.inj h']
      exact List.mem_cons_self _ _
    | false =>
      rw [hbeq] at h
      exact List.mem_cons_of_mem _ (ih h)

theorem mem_lookup_isSome {d : List (List Char × PrefValue)} {k : List Char} {v : PrefValue}
    (h : (k, v) ∈ d) : (List.lookup k d).isSome := by
  induction d with
  | nil => cases h
  | cons kv t ih =>
    obtain ⟨a, b⟩ := kv
    rw [List.lookup]
    cases hbeq : k == a with
    | true => rfl
    | false =>
      rcases List.mem_cons.mp h with h1 | h1
      · exact absurd (beq_iff_eq.mpr (congrArg Prod.fst h1)) (by simp [hbeq])
      · exact ih h1

theorem mem_lookup_of_nodup {d : List (List Char × PrefValue)}
    (hnd : (d.map Prod.fst).Nodup) {k : List Char} {v : PrefValue}
    (h : (k, v) ∈ d) : List.lookup k d = some v := by
  induction d with
  | nil => cases h
  | cons kv t ih =>
    obtain ⟨a, b⟩ := kv
    rw [List.map_cons, List.nodup_cons] at hnd
    rw [List.lookup]
    cases hbeq : k == a with
    | true =>
      have hk := eq_of_beq hbeq
      rcases List.mem_cons.mp h with h1 | h1
      · rw [show v = b from congrArg Prod.snd h1]
      · exact absurd (List.mem_map.mpr ⟨(k, v), h1, rfl⟩) (hk ▸ hnd.1)
    | false =>
      rcases List.mem_cons.mp h with h1 | h1
      · exact absurd (beq_iff_eq.mpr (congrArg Prod.fst h1)) (by simp [hbeq])
      · exact ih hnd.2 h1

theorem pyStrip_eq_self {s : List Char}
    (h1 : ∀ c, s.head? = some c → pyIsSpace c = false)
    (h2 : ∀ c, s.getLast? = some c → pyIsSpace c = false) : pyStrip s = s := by
  cases s with
  | nil => rfl
  | cons a t =>
    unfold pyStrip
    rw [List.dropWhile_cons, if_neg (by simp [h1 a rfl])]
    cases hrev : (a :: t).reverse with
    | nil => exact absurd (congrArg List.length hrev) (by simp)
    | cons b r =>
      have hb : (a :: t).getLast? = some b := by
        rw [← List.head?_reverse, hrev]
        rfl
      rw [List.dropWhile_cons, if_neg (by simp [h2 b hb]), ← hrev,
        List.reverse_reverse]

theorem build_line_head? (key : List Char) (v : PrefValue) :
    (build_line key v).head? = some 'u' := rfl

theorem build_line_getLast? (key : List Char) (v : PrefValue) :
    (build_line key v).getLast? = some ';' := by
  have h : build_line key v
      = ("user_pref(\"".data ++ key ++ "\", ".data ++ format_value v ++ [')']) ++ [';'] := by
    simp only [build_line, List.append_assoc]
    rfl
  rw [h, List.getLast?_concat]

theorem build_line_strip (key : List Char) (v : PrefValue) :
    pyStrip (build_line key v) = build_line key v := by
  refine pyStrip_eq_self ?_ ?_
  · intro c hc
    rw [build_line_head?] at hc
    rw [← Option.some.inj hc]
    decide
  · intro c hc
    rw [build_line_getLast?] at hc
    rw [← Option.some.inj hc]
    decide

theorem build_line_hasHdr (key : List Char) (v : PrefValue) :
    ("user_pref(\"".data).isPrefixOf (build_line key v) = true := by
  refine List.isPrefixOf_iff_prefix.mpr ?_
  refine ⟨key ++ "\", ".data ++ format_value v ++ ");".data, ?_⟩
  simp [build_line, List.append_assoc]

theorem pySplitQuote_length_pos (m : Nat) (s acc : List Char) :
    1 ≤ (pySplitQuote m s acc).length := by
  induction s generalizing m acc with
  | nil => simp [pySplitQuote]
  | cons c rest ih =>
    rw [pySplitQuote]
    split
    · simp
    · exact ih _ _

theorem pySplitQuote_length_two {m : Nat} (hm : m ≠ 0) {s : List Char}
    (hq : ('"' : Char) ∈ s) (acc : List Char) :
    2 ≤ (pySplitQuote m s acc).length := by
  induction s generalizing m acc with
  | nil => cases hq
  | cons c rest ih =>
    by_cases hc : c = '"'
    · subst hc
      rw [pySplitQuote, if_pos (by simp [hm])]
      have := pySplitQuote_length_pos (m - 1) rest []
      simp only [List.length_cons]
      omega
    · rcases List.mem_cons.mp hq with h1 | h1
      · exact absurd h1.symm hc
      · rw [pySplitQuote, if_neg (by simp [hc])]
        exact ih hm h1 _

theorem pySplitQuote_through {pre : List Char} (hp : ('"' : Char) ∉ pre) :
    ∀ (m : Nat), m ≠ 0 → ∀ (rest acc : List Char),
      pySplitQuote m (pre ++ '"' :: rest) acc
        = (acc.reverse ++ pre) :: pySplitQuote (m - 1) rest [] := by
  induction pre with
  | nil =>
    intro m hm rest acc
    rw [List.nil_append, pySplitQuote, if_pos (by simp [hm])]
    simp
  | cons c pre' ih =>
    intro m hm rest acc
    have hc : c ≠ '"' := by
      intro hcc
      exact hp (hcc ▸ List.mem_cons_self _ _)
    rw [List.cons_append, pySplitQuote, if_neg (by simp [hc]),
      ih (fun hmem => hp (List.mem_cons_of_mem _ hmem)) m hm rest (c :: acc)]
    simp

theorem extractKey_after_hdr (key rest : List Char) (hq : ('"' : Char) ∉ key) :
    extractKey ("user_pref(\"".data ++ (key ++ ('"' :: rest))) = key := by
  have h1 : "user_pref(\"".data ++ (key ++ ('"' :: rest))
      = "user_pref(".data ++ ('"' :: (key ++ '"' :: rest)) := rfl
  unfold extractKey
  rw [h1, pySplitQuote_through (by decide) 2 (by decide) _ _,
    pySplitQuote_through hq 1 (by decide) rest []]
  simp

theorem build_line_shape (key : List Char) (v : PrefValue) :
    build_line key v
      = "user_pref(\"".data
          ++ (key ++ ('"' :: (", ".data ++ (format_value v ++ ");".data)))) := by
  simp only [build_line, List.append_assoc]
  rfl

theorem extractKey_build_line (key : List Char) (v : PrefValue) (hq : ('"' : Char) ∉ key) :
    extractKey (pyStrip (build_line key v)) = key := by
  rw [build_line_strip, build_line_shape, extractKey_after_hdr _ _ hq]

/-! ## Claim C1 — value formatting -/

/-- C1: the claim states that a string value renders as the value enclosed
in double quotes, a boolean as the literal `true`/`false`, and an integer
as unquoted decimal.  The boolean and integer branches hold, but the
string branch of the generated script returns the constant literal text
of `"` + brace pair + `".format(value)` instead of the quoted value
(a misplaced closing quote in the source f-string), so the assignment
line built for `network.proxy.http` is not the declared
`user_pref("network.proxy.http", "127.0.0.1");`. -/
theorem format_value_string_bug :
    build_line ("network.proxy.http".data) (PrefValue.str "127.0.0.1")
        = "user_pref(\"network.proxy.http\", \"\x7b\x7d\".format(value));".data
    ∧ build_line ("network.proxy.http".data) (PrefValue.str "127.0.0.1")
        ≠ "user_pref(\"network.proxy.http\", \"127.0.0.1\");".data
    ∧ build_line ("keyword.enabled".data) (PrefValue.bool false)
        = "user_pref(\"keyword.enabled\", false);".data
    ∧ build_line ("network.proxy.allow_hijacking_localhost".data) (PrefValue.bool true)
        = "user_pref(\"network.proxy.allow_hijacking_localhost\", true);".data
    ∧ build_line ("network.proxy.http_port".data) (PrefValue.int 4444)
        = "user_pref(\"network.proxy.http_port\", 4444);".data := by
  refine ⟨by decide, by decide, by decide, by decide, by decide⟩

/-! ## Claim C5 — resolver memoization -/

/-- C5 counterexample: in an environment where neither compose form is
found, the first resolver call returns Unavailable without writing the
cache, and a second call re-probes (two probes, not zero) — contradicting
the claim that after the first call every subsequent call returns the
memoized result without probing again regardless of the first result. -/
theorem resolver_reprobe_counterexample :
    (get_compose_base_cmd ⟨none, 1, none⟩ none).1 = none
    ∧ (get_compose_base_cmd ⟨none, 1, none⟩ none).2.1 = none
    ∧ (get_compose_base_cmd ⟨none, 1, none⟩
        ((get_compose_base_cmd ⟨none, 1, none⟩ none).2.1)).2.2 = 2
    ∧ (get_compose_base_cmd ⟨none, 1, none⟩
        ((get_compose_base_cmd ⟨none, 1, none⟩ none).2.1)).2.2 ≠ 0 := by
  refine ⟨rfl, rfl, rfl, by decide⟩

/-- C5 amended: once a call has resolved (and hence memoized) a command,
every subsequent call returns exactly that command with zero probes and
leaves the cache unchanged; and after any first call the cache equals the
returned result, so the memoized value is written at most once and never
overwritten — but a failed resolution writes nothing and later calls
probe again. -/
theorem resolver_memoized_after_success (env : ResolveEnv) (cmd : List String) :
    get_compose_base_cmd env (some cmd) = (some cmd, some cmd, 0)
    ∧ (get_compose_base_cmd env none).2.1 = (get_compose_base_cmd env none).1 := by
  refine ⟨rfl, ?_⟩
  rcases env with ⟨dp, rc, dcp⟩
  cases dp <;> cases dcp <;>
    simp only [get_compose_base_cmd] <;> split <;> rfl

/-! ## Claim C6 — driver unavailable means no execution -/

/-- C6: when the resolver reports NotAvailable, `run_compose` returns
Unavailable (`none`) for any compose file and arguments, and executes no
external compose process. -/
theorem run_compose_unavailable (env : ResolveEnv) (cached : Option (List String))
    (composeFile : String) (args : List String)
    (h : (get_compose_base_cmd env cached).1 = none) :
    (run_compose env cached composeFile args).1 = none
    ∧ (run_compose env cached composeFile args).2.2 = [] := by
  rcases hg : get_compose_base_cmd env cached with ⟨r, c, n⟩
  rw [hg] at h
  simp only at h
  subst h
  simp [run_compose, hg]

/-- Witness for C6 at a concrete unavailable environment and an `up`
invocation. -/
theorem run_compose_unavailable_witness :
    (run_compose ⟨none, 1, none⟩ none "docker-compose.yml" ["up", "-d", "--build"]).1 = none
    ∧ (run_compose ⟨none, 1, none⟩ none "docker-compose.yml" ["up", "-d", "--build"]).2.2 = [] :=
  run_compose_unavailable ⟨none, 1, none⟩ none "docker-compose.yml" ["up", "-d", "--build"]
    (by decide)

/-! ## Claim C8 — absent preference file is a safe no-op -/

/-- C8: when the remote preference file does not exist, the patch
procedure exits with status 0 (reported as success) and performs no
mutation of the remote filesystem. -/
theorem reconcile_absent_file_noop (desired : List (List Char × PrefValue)) :
    remotePatch desired none = (0, none)
    ∧ reconcileOutcome (remotePatch desired none).1 = ReconcileOutcome.success :=
  ⟨rfl, rfl⟩

/-! ## Claim C9 — controller sequencing -/

/-- C9: reconciliation is invoked iff `up` exited 0 and the readiness
poll succeeded; a non-zero `up` terminates the run as failed without
polling; a readiness timeout yields the distinct timed-out report (with
reconciliation skipped), never the stack-failure report. -/
theorem start_stack_sequencing (env : StartEnv) :
    ((start_stack env).2.2 = true ↔ env.upResult = some 0 ∧ env.serviceReady = true)
    ∧ (∀ rc : Int, env.upResult = some rc → rc ≠ 0 →
        start_stack env = (StartReport.startFailed rc, false, false))
    ∧ (env.upResult = some 0 → env.serviceReady = false →
        (start_stack env).1 = StartReport.readinessTimedOut
        ∧ (start_stack env).2.2 = false
        ∧ ∀ c : Int, (start_stack env).1 ≠ StartReport.startFailed c) := by
  rcases env with ⟨up, ready, ex⟩
  cases up with
  | none => simp [start_stack]
  | some rc =>
    by_cases h : rc = 0
    · subst h
      cases ready <;> simp [start_stack]
    · simp [start_stack, h]

/-- Witness for C9: a non-zero `up` exit yields the failed report with no
polling and no reconciliation. -/
theorem start_stack_sequencing_witness :
    start_stack ⟨some 2, false, none⟩ = (StartReport.startFailed 2, false, false) :=
  (start_stack_sequencing ⟨some 2, false, none⟩).2.1 2 rfl (by decide)

/-! ## Claim C10 — key extraction is total on recognized lines -/

/-- C10: any line whose stripped form starts with the recognition header
ending in a double quote splits on double quotes into at least two
fields, so the script's index `[1]` is always in range and the remote
patch never raises. -/
theorem key_extraction_total (line : List Char)
    (h : ("user_pref(\"".data).isPrefixOf (pyStrip line) = true) :
    2 ≤ (pySplitQuote 2 (pyStrip line) []).length := by
  have hpre := List.isPrefixOf_iff_prefix.mp h
  have hmem : ('"' : Char) ∈ pyStrip line := hpre.subset (by decide)
  exact pySplitQuote_length_two (by decide) hmem []

/-- Witness for C10 at a concrete recognized line. -/
theorem key_extraction_total_witness :
    2 ≤ (pySplitQuote 2 (pyStrip ("  user_pref(\"keyword.enabled\", true);  ".data)) []).length :=
  key_extraction_total ("  user_pref(\"keyword.enabled\", true);  ".data) (by decide)

/-! ## Claim C4 — what counts as a recognized assignment line -/

theorem specRecognizedShape_getLast {line : List Char} (h : specRecognizedShape line) :
    line.getLast? = some ';' := by
  obtain ⟨k, v, rfl⟩ := h
  have hsh : "user_pref(\"".data ++ k ++ "\", ".data ++ v ++ ");".data
      = ("user_pref(\"".data ++ k ++ "\", ".data ++ v ++ [')']) ++ [';'] := by
    simp only [List.append_assoc]
    rfl
  rw [hsh, List.getLast?_concat]

/-- C4 counterexample: the truncated line `user_pref("keyword.enabled"`
is not of the exact shape `user_pref("<key>", <value>);` (it does not even
end in a semicolon), yet the script recognizes it by its prefix and
rewrites it to a fresh assignment instead of passing it through
unchanged. -/
theorem recognizer_not_exact_shape_counterexample :
    ¬ specRecognizedShape ("user_pref(\"keyword.enabled\"".data)
    ∧ (reconcileLines I2P_PROXY_PREFS [("user_pref(\"keyword.enabled\"".data)]).head?
        = some ("user_pref(\"keyword.enabled\", false);".data)
    ∧ ("user_pref(\"keyword.enabled\", false);".data)
        ≠ ("user_pref(\"keyword.enabled\"".data) := by
  refine ⟨?_, by decide, by decide⟩
  intro h
  have hl := specRecognizedShape_getLast h
  have hg : (("user_pref(\"keyword.enabled\"".data).getLast?) = some '"' := by decide
  rw [hg] at hl
  exact absurd (Option.some.inj hl) (by decide)

/-- C4 amended: a line is treated as a recognized key-assignment (and
eligible for replacement) exactly when its stripped form starts with the
fixed case- and punctuation-sensitive header `user_pref("`; its key is
the text between the first two double quotes.  Every line whose stripped
form does not start with that header is passed through unchanged — but
prefix matching, not the exact full shape `user_pref("<key>", <value>);`,
is what decides recognition.  The loop is the pointwise application of
this per-line rule. -/
theorem recognizer_startsWith_characterization (desired : List (List Char × PrefValue))
    (lines : List (List Char)) :
    (processLines desired lines).1 = lines.map (lineTransform desired)
    ∧ ∀ line : List Char,
        ("user_pref(\"".data).isPrefixOf (pyStrip line) = false →
          lineTransform desired line = line := by
  constructor
  · induction lines with
    | nil => rfl
    | cons l rest ih =>
      rw [List.map_cons, ← ih]
      simp only [processLines, lineTransform]
      split
      · split <;> rfl
      · rfl
  · intro line h
    simp [lineTransform, h]

/-- Witness for C4 at a concrete comment line. -/
theorem recognizer_startsWith_characterization_witness :
    (processLines I2P_PROXY_PREFS [("# comment".data)]).1
        = [("# comment".data)].map (lineTransform I2P_PROXY_PREFS)
    ∧ lineTransform I2P_PROXY_PREFS ("# comment".data) = ("# comment".data) :=
  ⟨(recognizer_startsWith_characterization I2P_PROXY_PREFS [("# comment".data)]).1,
   (recognizer_startsWith_characterization I2P_PROXY_PREFS [("# comment".data)]).2
     ("# comment".data) (by decide)⟩

/-! ## Line-level behaviour of the reconciliation loop -/

theorem extractKey_build_line_raw (key : List Char) (v : PrefValue)
    (hq : ('"' : Char) ∉ key) : extractKey (build_line key v) = key := by
  rw [build_line_shape, extractKey_after_hdr _ _ hq]

theorem lineTransform_build {d : List (List Char × PrefValue)} {k : List Char} {v : PrefValue}
    (hq : ('"' : Char) ∉ k) (hlk : List.lookup k d = some v) :
    lineTransform d (build_line k v) = build_line k v := by
  simp only [lineTransform]
  rw [build_line_strip, extractKey_build_line_raw k v hq, hlk, build_line_hasHdr]
  rfl

theorem seenKeyOf_build {d : List (List Char × PrefValue)} {k : List Char} {v : PrefValue}
    (hq : ('"' : Char) ∉ k) (hsome : (List.lookup k d).isSome) :
    seenKeyOf d (build_line k v) = some k := by
  simp only [seenKeyOf]
  rw [build_line_strip, extractKey_build_line_raw k v hq, build_line_hasHdr]
  obtain ⟨w, hw⟩ := Option.isSome_iff_exists.mp hsome
  rw [hw]
  rfl

theorem keyOfLine_build {k : List Char} (v : PrefValue) (hq : ('"' : Char) ∉ k) :
    keyOfLine (build_line k v) = some k := by
  simp only [keyOfLine]
  rw [build_line_strip, extractKey_build_line_raw k v hq, build_line_hasHdr]
  rfl

theorem lineTransform_cases {d : List (List Char × PrefValue)}
    (hq : ∀ kv ∈ d, ('"' : Char) ∉ kv.1) (l : List Char) :
    (lineTransform d l = l ∧ seenKeyOf d l = none)
    ∨ ∃ k v, List.lookup k d = some v ∧ ('"' : Char) ∉ k
        ∧ keyOfLine l = some k ∧ seenKeyOf d l = some k
        ∧ lineTransform d l = build_line k v := by
  by_cases hp : ("user_pref(\"".data).isPrefixOf (pyStrip l) = true
  · cases hl : List.lookup (extractKey (pyStrip l)) d with
    | some v =>
      right
      refine ⟨extractKey (pyStrip l), v, hl, hq _ (lookup_mem hl), ?_, ?_, ?_⟩
      · simp only [keyOfLine]
        rw [if_pos hp]
      · simp only [seenKeyOf]
        rw [if_pos hp, hl]
      · simp only [lineTransform]
        rw [if_pos hp, hl]
    | none =>
      left
      constructor
      · simp only [lineTransform]
        rw [if_pos hp, hl]
      · simp only [seenKeyOf]
        rw [if_pos hp, hl]
  · left
    constructor
    · simp only [lineTransform]
      rw [if_neg hp]
    · simp only [seenKeyOf]
      rw [if_neg hp]

theorem lineTransform_idem {d : List (List Char × PrefValue)}
    (hq : ∀ kv ∈ d, ('"' : Char) ∉ kv.1) (l : List Char) :
    lineTransform d (lineTransform d l) = lineTransform d l := by
  rcases lineTransform_cases hq l with ⟨h1, _⟩ | ⟨k, v, hlk, hqk, _, _, h1⟩
  · rw [h1, h1]
  · rw [h1]
    exact lineTransform_build hqk hlk

theorem seenKeyOf_lineTransform {d : List (List Char × PrefValue)}
    (hq : ∀ kv ∈ d, ('"' : Char) ∉ kv.1) (l : List Char) :
    seenKeyOf d (lineTransform d l) = seenKeyOf d l := by
  rcases lineTransform_cases hq l with ⟨h1, _⟩ | ⟨k, v, hlk, hqk, _, h2, h1⟩
  · rw [h1]
  · rw [h1, h2, seenKeyOf_build hqk (by rw [hlk]; rfl)]

theorem keyOfLine_lineTransform {d : List (List Char × PrefValue)}
    (hq : ∀ kv ∈ d, ('"' : Char) ∉ kv.1) (l : List Char) :
    keyOfLine (lineTransform d l) = keyOfLine l := by
  rcases lineTransform_cases hq l with ⟨h1, _⟩ | ⟨k, v, hlk, hqk, hkey, _, h1⟩
  · rw [h1]
  · rw [h1, hkey, keyOfLine_build v hqk]

theorem lineTransform_of_not_desired {d : List (List Char × PrefValue)}
    (hq : ∀ kv ∈ d, ('"' : Char) ∉ kv.1) {l : List Char}
    (h : isDesired d l = false) : lineTransform d l = l := by
  rcases lineTransform_cases hq l with ⟨h1, _⟩ | ⟨k, v, _, _, _, h2, _⟩
  · exact h1
  · rw [isDesired, h2] at h
    cases h

theorem processLines_fst (d : List (List Char × PrefValue)) (ls : List (List Char)) :
    (processLines d ls).1 = ls.map (lineTransform d) := by
  induction ls with
  | nil => rfl
  | cons l rest ih =>
    rw [List.map_cons, ← ih]
    simp only [processLines, lineTransform]
    split
    · split <;> rfl
    · rfl

theorem processLines_snd (d : List (List Char × PrefValue)) (ls : List (List Char)) :
    (processLines d ls).2 = ls.filterMap (seenKeyOf d) := by
  induction ls with
  | nil => rfl
  | cons l rest ih =>
    rw [List.filterMap_cons, ← ih]
    simp only [processLines, seenKeyOf]
    split
    · split <;> rfl
    · rfl

/-! ## Counting and preservation lemmas for the reconciler invariant -/

theorem prefs_quote_free : ∀ kv ∈ I2P_PROXY_PREFS, ('"' : Char) ∉ kv.1 := by decide

theorem prefs_keys_nodup : (I2P_PROXY_PREFS.map Prod.fst).Nodup := by decide

theorem seenKeyOf_eq_keyOfLine {d : List (List Char × PrefValue)} {k : List Char}
    (hsome : (List.lookup k d).isSome) (l : List Char) :
    (seenKeyOf d l = some k ↔ keyOfLine l = some k) := by
  simp only [seenKeyOf, keyOfLine]
  by_cases hp : ("user_pref(\"".data).isPrefixOf (pyStrip l) = true
  · rw [if_pos hp, if_pos hp]
    cases hl : List.lookup (extractKey (pyStrip l)) d with
    | some w => exact Iff.rfl
    | none =>
      constructor
      · intro h
        exact absurd h (by simp)
      · intro h
        have hk := Option.some.inj h
        rw [hk] at hl
        rw [hl] at hsome
        cases hsome
  · rw [if_neg hp, if_neg hp]

theorem countP_keyOf_map_lineTransform {d : List (List Char × PrefValue)}
    (hq : ∀ kv ∈ d, ('"' : Char) ∉ kv.1) (k : List Char) (ls : List (List Char)) :
    (ls.map (lineTransform d)).countP (fun l => decide (keyOfLine l = some k))
      = ls.countP (fun l => decide (keyOfLine l = some k)) := by
  rw [List.countP_map]
  refine List.countP_congr ?_
  intro l _
  simp only [Function.comp_apply, decide_eq_true_eq]
  rw [keyOfLine_lineTransform hq l]

theorem countP_key_filter {d : List (List Char × PrefValue)}
    (hnd : (d.map Prod.fst).Nodup) {k : List Char} {v : PrefValue}
    (hkv : (k, v) ∈ d) (q : List Char × PrefValue → Bool) :
    (d.filter q).countP (fun kv => decide (kv.1 = k)) = if q (k, v) then 1 else 0 := by
  induction d with
  | nil => cases hkv
  | cons a t ih =>
    rw [List.map_cons, List.nodup_cons] at hnd
    rcases List.mem_cons.mp hkv with h1 | h1
    · subst h1
      have hzero : (t.filter q).countP (fun kv => decide (kv.1 = k)) = 0 := by
        rw [List.countP_eq_zero]
        intro kv hkvmem
        have hmem := List.mem_of_mem_filter hkvmem
        simp only [decide_eq_true_eq]
        intro hkk
        exact hnd.1 (hkk ▸ List.mem_map.mpr ⟨kv, hmem, rfl⟩)
      rw [List.filter_cons]
      split
      · rw [List.countP_cons, hzero]
        simp
      · rw [hzero]
    · have hne : ¬((k, v).1 = (a.1 : List Char)) := by
        intro hkk
        exact hnd.1 (hkk ▸ List.mem_map.mpr ⟨(k, v), h1, rfl⟩)
      rw [List.filter_cons]
      split
      · rw [List.countP_cons, ih hnd.2 h1]
        have ha : ¬((a.1 : List Char) = k) := fun hak => hne hak.symm
        simp [ha]
      · exact ih hnd.2 h1

theorem seen_iff_countP_pos {d : List (List Char × PrefValue)} {k : List Char}
    (hsome : (List.lookup k d).isSome) (ls : List (List Char)) :
    (k ∈ (processLines d ls).2
      ↔ 0 < ls.countP (fun l => decide (keyOfLine l = some k))) := by
  rw [processLines_snd, List.countP_pos_iff]
  constructor
  · intro h
    obtain ⟨l, hl, hseen⟩ := List.mem_filterMap.mp h
    exact ⟨l, hl, by simp [(seenKeyOf_eq_keyOfLine hsome l).mp hseen]⟩
  · rintro ⟨l, hl, hkey⟩
    simp only [decide_eq_true_eq] at hkey
    exact List.mem_filterMap.mpr ⟨l, hl, (seenKeyOf_eq_keyOfLine hsome l).mpr hkey⟩

theorem reconcileLines_eq (d : List (List Char × PrefValue)) (ls : List (List Char)) :
    reconcileLines d ls
      = ls.map (lineTransform d)
        ++ (d.filter (fun kv => !((processLines d ls).2.contains kv.1))).map
            (fun kv => build_line kv.1 kv.2) := by
  simp only [reconcileLines]
  rw [processLines_fst]

theorem filter_not_desired_map {d : List (List Char × PrefValue)}
    (hq : ∀ kv ∈ d, ('"' : Char) ∉ kv.1) (ls : List (List Char)) :
    (ls.map (lineTransform d)).filter (fun l => !(isDesired d l))
      = ls.filter (fun l => !(isDesired d l)) := by
  induction ls with
  | nil => rfl
  | cons l rest ih =>
    rw [List.map_cons, List.filter_cons, List.filter_cons]
    have hiso : isDesired d (lineTransform d l) = isDesired d l := by
      rw [isDesired, isDesired, seenKeyOf_lineTransform hq l]
    cases hdes : isDesired d l with
    | true =>
      rw [hiso, hdes]
      simpa using ih
    | false =>
      rw [hiso, hdes, lineTransform_of_not_desired hq hdes]
      simpa using congrArg (List.cons l) ih

theorem filter_not_desired_appendix {d : List (List Char × PrefValue)}
    (hq : ∀ kv ∈ d, ('"' : Char) ∉ kv.1) (q : List Char × PrefValue → Bool) :
    ((d.filter q).map (fun kv => build_line kv.1 kv.2)).filter
        (fun l => !(isDesired d l)) = [] := by
  rw [List.filter_eq_nil_iff]
  intro l hl
  obtain ⟨kv, hkv, rfl⟩ := List.mem_map.mp hl
  have hmem := List.mem_of_mem_filter hkv
  have : isDesired d (build_line kv.1 kv.2) = true := by
    rw [isDesired, seenKeyOf_build (hq kv hmem) (mem_lookup_isSome hmem)]
    rfl
  simp [this]

theorem out_line_eq_build {d : List (List Char × PrefValue)}
    (hq : ∀ kv ∈ d, ('"' : Char) ∉ kv.1) (hnd : (d.map Prod.fst).Nodup)
    {k : List Char} {v : PrefValue} (hkv : (k, v) ∈ d) (ls : List (List Char)) :
    ∀ l ∈ reconcileLines d ls, keyOfLine l = some k → l = build_line k v := by
  intro l hl hkey
  rw [reconcileLines_eq] at hl
  rcases List.mem_append.mp hl with hmem | hmem
  · obtain ⟨l₀, _, rfl⟩ := List.mem_map.mp hmem
    rcases lineTransform_cases hq l₀ with ⟨h1, h2⟩ | ⟨k', v', hlk', hqk', _, _, h1⟩
    · rw [h1] at hkey ⊢
      have := (seenKeyOf_eq_keyOfLine (mem_lookup_isSome hkv) l₀).mpr hkey
      rw [h2] at this
      cases this
    · rw [h1] at hkey ⊢
      rw [keyOfLine_build v' hqk'] at hkey
      have hk := Option.some.inj hkey
      subst hk
      have := mem_lookup_of_nodup hnd hkv
      rw [hlk'] at this
      rw [Option.some.inj this]
  · obtain ⟨kv, hkvf, rfl⟩ := List.mem_map.mp hmem
    have hmemd := List.mem_of_mem_filter hkvf
    rw [keyOfLine_build kv.2 (hq kv hmemd)] at hkey
    have hk := Option.some.inj hkey
    have hpair : (k, kv.2) ∈ d := by
      rw [← hk]
      exact hmemd
    have h1 := mem_lookup_of_nodup hnd hkv
    have h2 := mem_lookup_of_nodup hnd hpair
    rw [h1] at h2
    rw [hk, Option.some.inj h2]

/-! ## Claim C2 — reconciler invariant -/

/-- C2 counterexample: a preference file that already contains the same
desired key on two lines.  Both lines are rewritten in place, so after
one reconciliation run the key `network.proxy.http` appears twice, not
exactly once; moreover the rewritten line is the formatter's literal
`"..".format(value)` text, not the declared double-quoted string value. -/
theorem reconcile_duplicate_key_counterexample :
    (reconcileLines I2P_PROXY_PREFS
        (splitLines ("user_pref(\"network.proxy.http\", \"127.0.0.1\");\nuser_pref(\"network.proxy.http\", \"127.0.0.1\");\n".data))).countP
        (fun l => decide (keyOfLine l = some ("network.proxy.http".data))) = 2
    ∧ (reconcileLines I2P_PROXY_PREFS
        (splitLines ("user_pref(\"network.proxy.http\", \"127.0.0.1\");\nuser_pref(\"network.proxy.http\", \"127.0.0.1\");\n".data))).head?
        = some ("user_pref(\"network.proxy.http\", \"\x7b\x7d\".format(value));".data)
    ∧ ("user_pref(\"network.proxy.http\", \"\x7b\x7d\".format(value));".data)
        ≠ ("user_pref(\"network.proxy.http\", \"127.0.0.1\");".data) := by
  refine ⟨by decide, by decide, by decide⟩

/-- C2 amended: after one reconciliation run on any initial content,
every desired key appears `max(its number of occurrences in the input) 1`
times (so exactly once whenever the input contained at most one
assignment of it), and every occurrence is the formatter's freshly built
assignment line for the declared value (for strings this is the
formatter's literal text, per the C1 slip); every passthrough line and
every assignment of a non-desired key is preserved verbatim and in
original relative order; and the output is the in-place-rewritten input
followed by the not-yet-seen desired keys appended at the end in the
iteration order of the desired mapping. -/
theorem reconcile_key_preservation (s : List Char) (k : List Char) (v : PrefValue)
    (hkv : (k, v) ∈ I2P_PROXY_PREFS) :
    (reconcileLines I2P_PROXY_PREFS (splitLines s)).countP
        (fun l => decide (keyOfLine l = some k))
      = max ((splitLines s).countP (fun l => decide (keyOfLine l = some k))) 1
    ∧ (∀ l ∈ reconcileLines I2P_PROXY_PREFS (splitLines s),
        keyOfLine l = some k → l = build_line k v)
    ∧ (reconcileLines I2P_PROXY_PREFS (splitLines s)).filter
          (fun l => !(isDesired I2P_PROXY_PREFS l))
        = (splitLines s).filter (fun l => !(isDesired I2P_PROXY_PREFS l))
    ∧ reconcileLines I2P_PROXY_PREFS (splitLines s)
        = (splitLines s).map (lineTransform I2P_PROXY_PREFS)
          ++ (I2P_PROXY_PREFS.filter
                (fun kv => !((processLines I2P_PROXY_PREFS (splitLines s)).2.contains kv.1))).map
              (fun kv => build_line kv.1 kv.2) := by
  have hq := prefs_quote_free
  have hnd := prefs_keys_nodup
  refine ⟨?_, out_line_eq_build hq hnd hkv _, ?_, reconcileLines_eq _ _⟩
  · rw [reconcileLines_eq, List.countP_append, countP_keyOf_map_lineTransform hq]
    have happ : ((I2P_PROXY_PREFS.filter
          (fun kv => !((processLines I2P_PROXY_PREFS (splitLines s)).2.contains kv.1))).map
            (fun kv => build_line kv.1 kv.2)).countP
          (fun l => decide (keyOfLine l = some k))
        = if !((processLines I2P_PROXY_PREFS (splitLines s)).2.contains k) then 1 else 0 := by
      rw [List.countP_map]
      have hcong : List.countP
            ((fun l => decide (keyOfLine l = some k)) ∘ fun kv => build_line kv.1 kv.2)
            (I2P_PROXY_PREFS.filter
              (fun kv => !((processLines I2P_PROXY_PREFS (splitLines s)).2.contains kv.1)))
          = List.countP (fun kv => decide (kv.1 = k))
            (I2P_PROXY_PREFS.filter
              (fun kv => !((processLines I2P_PROXY_PREFS (splitLines s)).2.contains kv.1))) :=
        List.countP_congr (fun kv hkvf => by
          have hmemd := List.mem_of_mem_filter hkvf
          simp only [Function.comp_apply, decide_eq_true_eq]
          rw [keyOfLine_build kv.2 (hq kv hmemd)]
          exact Option.some_inj)
      rw [hcong, countP_key_filter hnd hkv _]
    rw [happ]
    have hcont : ((processLines I2P_PROXY_PREFS (splitLines s)).2.contains k = true)
        ↔ k ∈ (processLines I2P_PROXY_PREFS (splitLines s)).2 := List.elem_iff
    by_cases hseen : k ∈ (processLines I2P_PROXY_PREFS (splitLines s)).2
    · have hpos := (seen_iff_countP_pos (mem_lookup_isSome hkv) (splitLines s)).mp hseen
      have hc : (!((processLines I2P_PROXY_PREFS (splitLines s)).2.contains k)) = false := by
        rw [hcont.mpr hseen]
        rfl
      rw [hc, if_neg (by simp)]
      omega
    · have hzero : (splitLines s).countP (fun l => decide (keyOfLine l = some k)) = 0 := by
        by_contra hnz
        exact hseen ((seen_iff_countP_pos (mem_lookup_isSome hkv) (splitLines s)).mpr
          (Nat.pos_of_ne_zero hnz))
      have hc : ((processLines I2P_PROXY_PREFS (splitLines s)).2.contains k) = false := by
        cases hcc : (processLines I2P_PROXY_PREFS (splitLines s)).2.contains k with
        | true => exact absurd (hcont.mp hcc) hseen
        | false => rfl
      rw [hc, hzero]
      rfl
  · rw [reconcileLines_eq, List.filter_append, filter_not_desired_map hq,
      filter_not_desired_appendix hq, List.append_nil]

/-- Witness for C2 at a concrete input without the key. -/
theorem reconcile_key_preservation_witness :
    (reconcileLines I2P_PROXY_PREFS (splitLines ("# comment\n".data))).countP
        (fun l => decide (keyOfLine l = some ("keyword.enabled".data)))
      = max ((splitLines ("# comment\n".data)).countP
          (fun l => decide (keyOfLine l = some ("keyword.enabled".data)))) 1 :=
  (reconcile_key_preservation ("# comment\n".data) ("keyword.enabled".data)
    (PrefValue.bool false) (by decide)).1

/-! ## splitlines and join round trip -/

theorem splitLinesAux_nil (acc : List Char) :
    splitLinesAux [] acc = if acc.isEmpty then [] else [acc.reverse] := by
  rw [splitLinesAux.eq_def]

theorem splitLinesAux_newline (rest acc : List Char) :
    splitLinesAux ('\n' :: rest) acc = acc.reverse :: splitLinesAux rest [] := by
  rw [splitLinesAux.eq_def]
  norm_num [pyLineBreak]
  intro h
  exact absurd h (by decide)

theorem splitLinesAux_nonbreak {c : Char} (h : pyLineBreak c = false) (rest acc : List Char) :
    splitLinesAux (c :: rest) acc = splitLinesAux rest (c :: acc) := by
  rw [splitLinesAux.eq_def]
  simp [h]

theorem splitLinesAux_break_free : ∀ (s acc : List Char),
    (∀ c ∈ acc, pyLineBreak c = false) →
    ∀ l ∈ splitLinesAux s acc, ∀ c ∈ l, pyLineBreak c = false := by
  intro s acc
  induction s, acc using splitLinesAux.induct with
  | case1 acc hacc' =>
    intro hacc l hl
    rw [splitLinesAux_nil, if_pos hacc'] at hl
    cases hl
  | case2 acc hne =>
    intro hacc l hl c hc
    rw [splitLinesAux_nil, if_neg hne] at hl
    rw [List.mem_singleton.mp hl] at hc
    exact hacc c (List.mem_reverse.mp hc)
  | case3 acc hbr =>
    intro hacc l hl c hc
    have he : splitLinesAux ['\r'] acc = [acc.reverse] := by
      rw [splitLinesAux.eq_def]
      simp [hbr]
    rw [he] at hl
    rw [List.mem_singleton.mp hl] at hc
    exact hacc c (List.mem_reverse.mp hc)
  | case4 acc rest2 hbr ih =>
    intro hacc l hl c hc
    have he : splitLinesAux ('\r' :: '\n' :: rest2) acc
        = acc.reverse :: splitLinesAux rest2 [] := by
      rw [splitLinesAux.eq_def]
      simp [hbr]
    rw [he] at hl
    rcases List.mem_cons.mp hl with rfl | hl2
    · exact hacc c (List.mem_reverse.mp hc)
    · exact ih (by intro x hx; cases hx) l hl2 c hc
  | case5 acc c2 rest2 hc2 hbr ih =>
    intro hacc l hl c hc
    have he : splitLinesAux ('\r' :: c2 :: rest2) acc
        = acc.reverse :: splitLinesAux (c2 :: rest2) [] := by
      rw [splitLinesAux.eq_def]
      simp [hbr, hc2]
    rw [he] at hl
    rcases List.mem_cons.mp hl with rfl | hl2
    · exact hacc c (List.mem_reverse.mp hc)
    · exact ih (by intro x hx; cases hx) l hl2 c hc
  | case6 c0 rest acc hbr hcr ih =>
    intro hacc l hl c hc
    have he : splitLinesAux (c0 :: rest) acc = acc.reverse :: splitLinesAux rest [] := by
      rw [splitLinesAux.eq_def]
      simp [hbr, hcr]
    rw [he] at hl
    rcases List.mem_cons.mp hl with rfl | hl2
    · exact hacc c (List.mem_reverse.mp hc)
    · exact ih (by intro x hx; cases hx) l hl2 c hc
  | case7 c0 rest acc hnb ih =>
    intro hacc l hl c hc
    rw [splitLinesAux_nonbreak (by cases hpb : pyLineBreak c0 with
        | true => exact absurd hpb hnb
        | false => rfl)] at hl
    refine ih ?_ l hl c hc
    intro x hx
    rcases List.mem_cons.mp hx with rfl | hx2
    · cases hpb : pyLineBreak x with
      | true => exact absurd hpb hnb
      | false => rfl
    · exact hacc x hx2

theorem splitLines_break_free (s : List Char) :
    ∀ l ∈ splitLines s, ∀ c ∈ l, pyLineBreak c = false :=
  splitLinesAux_break_free s [] (by intro c hc; cases hc)

theorem splitLinesAux_line {l : List Char} (hfree : ∀ c ∈ l, pyLineBreak c = false) :
    ∀ (rest acc : List Char),
      splitLinesAux (l ++ '\n' :: rest) acc = (acc.reverse ++ l) :: splitLinesAux rest [] := by
  induction l with
  | nil =>
    intro rest acc
    rw [List.nil_append, splitLinesAux_newline]
    simp
  | cons c l' ih =>
    intro rest acc
    have hc : pyLineBreak c = false := hfree c (List.mem_cons_self _ _)
    rw [List.cons_append, splitLinesAux_nonbreak hc,
      ih (fun c2 h2 => hfree c2 (List.mem_cons_of_mem _ h2)) rest (c :: acc)]
    simp

theorem splitLines_join : ∀ {ls : List (List Char)}, ls ≠ [] →
    (∀ l ∈ ls, ∀ c ∈ l, pyLineBreak c = false) →
    splitLines (List.intercalate ['\n'] ls ++ ['\n']) = ls := by
  intro ls
  induction ls with
  | nil =>
    intro h
    cases h rfl
  | cons l rest ih =>
    intro _ hfree
    cases rest with
    | nil =>
      have h1 : List.intercalate ['\n'] [l] = l := by simp [List.intercalate]
      rw [h1, splitLines,
        show l ++ ['\n'] = l ++ '\n' :: ([] : List Char) from rfl,
        splitLinesAux_line (hfree l (List.mem_cons_self _ _)) [] [],
        splitLinesAux_nil]
      simp
    | cons l2 rest' =>
      have h1 : List.intercalate ['\n'] (l :: l2 :: rest')
          = l ++ '\n' :: List.intercalate ['\n'] (l2 :: rest') := by
        rw [List.intercalate, List.intercalate, List.intersperse_cons_cons]
        simp
      rw [h1, splitLines,
        show (l ++ '\n' :: List.intercalate ['\n'] (l2 :: rest')) ++ ['\n']
            = l ++ '\n' :: (List.intercalate ['\n'] (l2 :: rest') ++ ['\n']) from by simp,
        splitLinesAux_line (hfree l (List.mem_cons_self _ _)) _ []]
      have h3 := ih (by simp) (fun l3 hm => hfree l3 (List.mem_cons_of_mem _ hm))
      rw [splitLines] at h3
      rw [h3]
      simp

/-! ## Claim C3 — idempotence of reconciliation -/

theorem prefs_build_break_free :
    ∀ kv ∈ I2P_PROXY_PREFS, ∀ c ∈ build_line kv.1 kv.2, pyLineBreak c = false := by
  decide

theorem reconcileLines_break_free (s : List Char) :
    ∀ l ∈ reconcileLines I2P_PROXY_PREFS (splitLines s), ∀ c ∈ l, pyLineBreak c = false := by
  intro l hl c hc
  rw [reconcileLines_eq] at hl
  rcases List.mem_append.mp hl with hm | hm
  · obtain ⟨l₀, hl₀, rfl⟩ := List.mem_map.mp hm
    rcases lineTransform_cases prefs_quote_free l₀ with ⟨h1, _⟩ | ⟨k, v, hlk, _, _, _, h1⟩
    · rw [h1] at hc
      exact splitLines_break_free s l₀ hl₀ c hc
    · rw [h1] at hc
      exact prefs_build_break_free (k, v) (lookup_mem hlk) c hc
  · obtain ⟨kv, hkv, rfl⟩ := List.mem_map.mp hm
    exact prefs_build_break_free kv (List.mem_of_mem_filter hkv) c hc

theorem reconcileLines_ne_nil (s : List Char) :
    reconcileLines I2P_PROXY_PREFS (splitLines s) ≠ [] := by
  cases hsp : splitLines s with
  | nil => decide
  | cons l₀ ls' =>
    rw [reconcileLines_eq]
    simp

theorem all_seen_in_output (s : List Char) :
    ∀ kv ∈ I2P_PROXY_PREFS,
      kv.1 ∈ (processLines I2P_PROXY_PREFS
        (reconcileLines I2P_PROXY_PREFS (splitLines s))).2 := by
  intro kv hkv
  rw [processLines_snd, List.mem_filterMap]
  by_cases hs : kv.1 ∈ (processLines I2P_PROXY_PREFS (splitLines s)).2
  · rw [processLines_snd, List.mem_filterMap] at hs
    obtain ⟨l₀, hl₀, hseen⟩ := hs
    refine ⟨lineTransform I2P_PROXY_PREFS l₀, ?_, ?_⟩
    · rw [reconcileLines_eq]
      exact List.mem_append.mpr (Or.inl (List.mem_map.mpr ⟨l₀, hl₀, rfl⟩))
    · rw [seenKeyOf_lineTransform prefs_quote_free l₀]
      exact hseen
  · refine ⟨build_line kv.1 kv.2, ?_, ?_⟩
    · rw [reconcileLines_eq]
      refine List.mem_append.mpr (Or.inr (List.mem_map.mpr ⟨kv, ?_, rfl⟩))
      refine List.mem_filter.mpr ⟨hkv, ?_⟩
      have hc : (processLines I2P_PROXY_PREFS (splitLines s)).2.contains kv.1 = false := by
        cases hcc : (processLines I2P_PROXY_PREFS (splitLines s)).2.contains kv.1 with
        | true => exact absurd (List.elem_iff.mp hcc) hs
        | false => rfl
      rw [hc]
      rfl
    · exact seenKeyOf_build (prefs_quote_free kv hkv)
        (mem_lookup_isSome (by rw [Prod.mk.eta]; exact hkv))

theorem reconcileLines_fixed (s : List Char) :
    reconcileLines I2P_PROXY_PREFS (reconcileLines I2P_PROXY_PREFS (splitLines s))
      = reconcileLines I2P_PROXY_PREFS (splitLines s) := by
  have hq := prefs_quote_free
  have hnd := prefs_keys_nodup
  rw [reconcileLines_eq I2P_PROXY_PREFS
    (reconcileLines I2P_PROXY_PREFS (splitLines s))]
  have hmap : (reconcileLines I2P_PROXY_PREFS (splitLines s)).map
      (lineTransform I2P_PROXY_PREFS) = reconcileLines I2P_PROXY_PREFS (splitLines s) := by
    refine (List.map_congr_left ?_).trans (List.map_id _)
    intro l hl
    rw [reconcileLines_eq] at hl
    rcases List.mem_append.mp hl with hm | hm
    · obtain ⟨l₀, _, rfl⟩ := List.mem_map.mp hm
      exact lineTransform_idem hq l₀
    · obtain ⟨kv, hkv, rfl⟩ := List.mem_map.mp hm
      have hmem := List.mem_of_mem_filter hkv
      exact lineTransform_build (hq kv hmem)
        (mem_lookup_of_nodup hnd (by rw [Prod.mk.eta]; exact hmem))
  have happ : I2P_PROXY_PREFS.filter
      (fun kv => !((processLines I2P_PROXY_PREFS
          (reconcileLines I2P_PROXY_PREFS (splitLines s))).2.contains kv.1)) = [] := by
    rw [List.filter_eq_nil_iff]
    intro kv hkv
    have hc : ((processLines I2P_PROXY_PREFS
        (reconcileLines I2P_PROXY_PREFS (splitLines s))).2.contains kv.1) = true :=
      List.elem_iff.mpr (all_seen_in_output s kv hkv)
    rw [hc]
    simp
  rw [hmap, happ]
  simp

/-- C3: the whole-file reconciliation transformation is idempotent — for
every initial content, applying it twice produces byte-identical output
to applying it once, trailing newline included. -/
theorem reconcile_idempotent (s : List Char) :
    reconcileText I2P_PROXY_PREFS (reconcileText I2P_PROXY_PREFS s)
      = reconcileText I2P_PROXY_PREFS s := by
  have hrt : splitLines (List.intercalate ['\n']
        (reconcileLines I2P_PROXY_PREFS (splitLines s)) ++ ['\n'])
      = reconcileLines I2P_PROXY_PREFS (splitLines s) :=
    splitLines_join (reconcileLines_ne_nil s) (reconcileLines_break_free s)
  show List.intercalate ['\n'] (reconcileLines I2P_PROXY_PREFS
      (splitLines (reconcileText I2P_PROXY_PREFS s))) ++ ['\n']
    = reconcileText I2P_PROXY_PREFS s
  rw [show reconcileText I2P_PROXY_PREFS s
      = List.intercalate ['\n'] (reconcileLines I2P_PROXY_PREFS (splitLines s)) ++ ['\n']
    from rfl]
  rw [hrt, reconcileLines_fixed]

/-! ## Claim C7 — readiness polling -/

theorem wfsLoop_true_iff (env : PollEnv) (service : List Char) (deadline : Nat)
    (hmono : ∀ i j : Nat, i ≤ j → env.times i ≤ env.times j) :
    ∀ (fuel k : Nat), deadline ≤ env.times (k + fuel + 1) →
      (wfsLoop env service deadline fuel k = true
        ↔ ∃ m, k ≤ m ∧ env.times (m + 1) < deadline
            ∧ serviceSeen service (env.query m) = true) := by
  intro fuel
  induction fuel with
  | zero =>
    intro k hf
    simp only [wfsLoop]
    constructor
    · intro h
      cases h
    · rintro ⟨m, hkm, hlt, _⟩
      have hmm : env.times (k + 1) ≤ env.times (m + 1) := hmono _ _ (by omega)
      have hf' : deadline ≤ env.times (k + 1) := by simpa using hf
      omega
  | succ fuel ih =>
    intro k hf
    rw [wfsLoop]
    by_cases hlt : env.times (k + 1) < deadline
    · rw [if_pos hlt]
      by_cases hseen : serviceSeen service (env.query k) = true
      · rw [if_pos hseen]
        constructor
        · intro _
          exact ⟨k, Nat.le_refl k, hlt, hseen⟩
        · intro _
          rfl
      · rw [if_neg hseen]
        have hf' : deadline ≤ env.times (k + 1 + fuel + 1) := by
          have harith : k + 1 + fuel + 1 = k + (fuel + 1) + 1 := by omega
          rw [harith]
          exact hf
        rw [ih (k + 1) hf']
        constructor
        · rintro ⟨m, hm, h1, h2⟩
          exact ⟨m, by omega, h1, h2⟩
        · rintro ⟨m, hm, h1, h2⟩
          refine ⟨m, ?_, h1, h2⟩
          rcases Nat.eq_or_lt_of_le hm with rfl | h
          · exact absurd h2 hseen
          · omega
    · rw [if_neg hlt]
      constructor
      · intro h
        cases h
      · rintro ⟨m, hm, h1, h2⟩
        have := hmono (k + 1) (m + 1) (by omega)
        omega

/-- C7: `wait_for_service` computes the absolute deadline `now + timeout`
and polls; it returns true exactly when some `ps` query issued while the
clock is still before the deadline exits 0 with the target service among
the stripped newline-delimited names of its captured output, and false
exactly when the deadline passes without the target having been observed
running — failed or Unavailable queries count as not-yet-ready and are
simply retried.  `fuel` bounds the modelled iterations; the hypothesis
that the clock passes the deadline within `fuel` polls makes it inert. -/
theorem wait_for_service_characterization (env : PollEnv) (service : List Char)
    (timeout fuel : Nat)
    (hmono : ∀ i j : Nat, i ≤ j → env.times i ≤ env.times j)
    (hfuel : env.times 0 + timeout ≤ env.times (fuel + 1)) :
    (wait_for_service env service timeout fuel = true
      ↔ ∃ k, env.times (k + 1) < env.times 0 + timeout
          ∧ serviceSeen service (env.query k) = true)
    ∧ (wait_for_service env service timeout fuel = false
      ↔ ∀ k, env.times (k + 1) < env.times 0 + timeout →
          serviceSeen service (env.query k) = false) := by
  have hmain := wfsLoop_true_iff env service (env.times 0 + timeout) hmono fuel 0
    (by simpa using hfuel)
  constructor
  · rw [wait_for_service, hmain]
    constructor
    · rintro ⟨m, _, h1, h2⟩
      exact ⟨m, h1, h2⟩
    · rintro ⟨m, h1, h2⟩
      exact ⟨m, Nat.zero_le m, h1, h2⟩
  · rw [wait_for_service]
    constructor
    · intro hfalse k hk
      cases hq : serviceSeen service (env.query k) with
      | false => rfl
      | true =>
        have htrue := hmain.mpr ⟨k, Nat.zero_le k, hk, hq⟩
        rw [htrue] at hfalse
        cases hfalse
    · intro hall
      cases hw : wfsLoop env service (env.times 0 + timeout) fuel 0 with
      | false => rfl
      | true =>
        obtain ⟨m, _, h1, h2⟩ := hmain.mp hw
        rw [hall m h1] at h2
        cases h2

/-- Witness for C7: with an identity clock and a query that always
reports the target running, the poll succeeds. -/
theorem wait_for_service_characterization_witness :
    wait_for_service ⟨fun i => i, fun _ => some (0, "i2p-browser\n".data)⟩
      ("i2p-browser".data) 5 5 = true :=
  ((wait_for_service_characterization ⟨fun i => i, fun _ => some (0, "i2p-browser\n".data)⟩
      ("i2p-browser".data) 5 5 (fun i j h => h) (by decide)).1).mpr
    ⟨0, by decide, by decide⟩
